import Mathlib

/-!
Verification of the fastkeccak sponge construction (keccak.go).

Bytes are modelled as `Nat` values below 256, byte buffers as `List Nat`.
The 200-byte sponge state is a `List Nat` of length 200.  The Keccak-f[1600]
permutation itself is not part of the repository source (it is provided as
platform assembly taken from the Go standard library), so it is modelled from
the spec as the standard 24-round Keccak-f[1600] round function over 25
little-endian 64-bit lanes.
-/

namespace Keccak

/-- The sponge rate for Keccak-256: (1600 - 2*256) / 8 = 136 bytes (keccak.go). -/
def rate : Nat := 136

/-- The all-zero 200-byte sponge state (`var state [200]byte`). -/
def zeroState : List Nat := List.replicate 200 0

/-- le64 reads a little-endian uint64 from the first 8 bytes of `b` (keccak.go `le64`). -/
def le64 (b : List Nat) : Nat :=
  b.getD 0 0 ||| b.getD 1 0 <<< 8 ||| b.getD 2 0 <<< 16 ||| b.getD 3 0 <<< 24 |||
  b.getD 4 0 <<< 32 ||| b.getD 5 0 <<< 40 ||| b.getD 6 0 <<< 48 ||| b.getD 7 0 <<< 56

/-- The 8 little-endian bytes of a 64-bit word, as stored back into the state
by a `uint64` write on a little-endian machine. -/
def le64bytes (v : Nat) : List Nat :=
  [v % 256, v >>> 8 % 256, v >>> 16 % 256, v >>> 24 % 256,
   v >>> 32 % 256, v >>> 40 % 256, v >>> 48 % 256, v >>> 56 % 256]

/-- Go `copy(dst[pos:], src)` semantics: overwrite `dst` from position `pos`
with as much of `src` as fits, leaving the rest of `dst` unchanged. -/
def overwrite (dst : List Nat) (pos : Nat) (src : List Nat) : List Nat :=
  dst.take pos ++ src.take (dst.length - pos) ++ dst.drop (pos + src.length)

/-- The word loop of `xorIn`: for `k` lanes starting at lane `i`,
`stateU64[i] ^= le64(data[8*i:])`, reading and writing lanes little-endian. -/
def xorInLanes (d : List Nat) : Nat → Nat → List Nat → List Nat
  | _, 0, st => st
  | i, Nat.succ k, st =>
    xorInLanes d (i + 1) k
      (overwrite st (8 * i) (le64bytes (le64 (st.drop (8 * i)) ^^^ le64 (d.drop (8 * i)))))

/-- The byte tail loop of `xorIn`: for `k` bytes starting at index `i`,
`state[i] ^= data[i]`. -/
def xorInTail (d : List Nat) : Nat → Nat → List Nat → List Nat
  | _, 0, st => st
  | i, Nat.succ k, st => xorInTail d (i + 1) k (st.set i (st.getD i 0 ^^^ d.getD i 0))

/-- xorIn XORs data into the beginning of state (keccak.go `xorIn`): `n = len(data) >> 3`
lanes are processed 8 bytes at a time as little-endian uint64 values, then the
remaining `len(data) - n<<3` bytes are XORed byte by byte. -/
def xorIn (st : List Nat) (d : List Nat) : List Nat :=
  let n := d.length >>> 3
  xorInTail d (n <<< 3) (d.length - n <<< 3) (xorInLanes d 0 n st)

/-- Modelled from the spec: the 24 round constants of the standard
Keccak-f[1600] round function (spec section 6; the permutation implementation
itself is platform assembly absent from the repository source). -/
def keccakRC : List Nat :=
  [1, 32898, 9223372036854808714,
   9223372039002292224, 32907, 2147483649,
   9223372039002292353, 9223372036854808585, 138,
   136, 2147516425, 2147483658,
   2147516555, 9223372036854775947, 9223372036854808713,
   9223372036854808579, 9223372036854808578, 9223372036854775936,
   32778, 9223372039002259466, 9223372039002292353,
   9223372036854808704, 2147483649, 9223372039002292232]

/-- Modelled from the spec: the rho rotation offsets of Keccak-f[1600],
indexed by flat lane index `x + 5*y`. -/
def rhoOffsets : List Nat :=
  [0, 1, 62, 28, 27] ++ [36, 44, 6, 55, 20] ++ [3, 10, 43, 25, 39] ++
    [41, 45, 15, 21, 8] ++ [18, 2, 61, 56, 14]

/-- Rotate a 64-bit word left by `n` bits (0 ≤ n < 64). -/
def rotl64 (x n : Nat) : Nat := (x <<< n ||| x >>> (64 - n)) % 2 ^ 64

/-- Modelled from the spec: the theta step of the Keccak-f[1600] round. -/
def theta (A : List Nat) : List Nat :=
  let C : Nat → Nat := fun x =>
    A.getD x 0 ^^^ A.getD (x + 5) 0 ^^^ A.getD (x + 10) 0 ^^^ A.getD (x + 15) 0 ^^^
      A.getD (x + 20) 0
  let D : Nat → Nat := fun x => C ((x + 4) % 5) ^^^ rotl64 (C ((x + 1) % 5)) 1
  (List.range 25).map (fun j => A.getD j 0 ^^^ D (j % 5))

/-- Modelled from the spec: the combined rho and pi steps of the Keccak-f[1600]
round: output lane (X, Y) is the source lane (X + 3Y mod 5, X) rotated by its
rho offset. -/
def rhoPi (A : List Nat) : List Nat :=
  (List.range 25).map (fun j =>
    let x := (j % 5 + 3 * (j / 5)) % 5
    let y := j % 5
    rotl64 (A.getD (x + 5 * y) 0) (rhoOffsets.getD (x + 5 * y) 0))

/-- Modelled from the spec: the chi step of the Keccak-f[1600] round. -/
def chi (B : List Nat) : List Nat :=
  (List.range 25).map (fun j =>
    let x := j % 5
    let y := j / 5
    B.getD j 0 ^^^ ((B.getD ((x + 1) % 5 + 5 * y) 0 ^^^ (2 ^ 64 - 1)) &&&
      B.getD ((x + 2) % 5 + 5 * y) 0))

/-- Modelled from the spec: one Keccak-f[1600] round (theta, rho, pi, chi, iota). -/
def keccakRound (A : List Nat) (rc : Nat) : List Nat :=
  let B := chi (rhoPi (theta A))
  B.set 0 (B.getD 0 0 ^^^ rc)

/-- View the 200-byte state as 25 little-endian 64-bit lanes. -/
def bytesToLanes (st : List Nat) : List Nat :=
  (List.range 25).map (fun i => le64 (st.drop (8 * i)))

/-- Serialize 25 lanes back to 200 bytes, little-endian. -/
def lanesToBytes (A : List Nat) : List Nat := (A.map le64bytes).flatten

/-- Modelled from the spec: `keccakF1600`, the in-place Keccak-f[1600]
permutation of the 200-byte state.  The concrete implementation is platform
assembly from the Go standard library and is not part of the repository
source; the spec (section 6) fixes its contract to the standard 24-round
Keccak-f[1600] round function, bit-exact, over 25 little-endian 64-bit lanes. -/
def keccakF1600 (st : List Nat) : List Nat :=
  lanesToBytes (keccakRC.foldl keccakRound (bytesToLanes st))

/-- Fuel-indexed block loop shared by `Sum256` and `Hasher.Write`
(`for len(data) >= rate { ... }`): while at least `rate` bytes remain, feed
one rate-sized block to `f` and advance past it. -/
def blockLoopF (f : List Nat → List Nat → List Nat) :
    Nat → List Nat → List Nat → List Nat × List Nat
  | 0, st, d => (st, d)
  | Nat.succ fuel, st, d =>
    if rate ≤ d.length then blockLoopF f fuel (f st (d.take rate)) (d.drop rate)
    else (st, d)

/-- The absorb loop of keccak.go: while at least `rate` bytes remain, XOR a
block into the state via `xorIn` and apply the permutation.  Fuel `d.length`
always suffices since each iteration consumes `rate ≥ 1` bytes. -/
def absorbLoop (st d : List Nat) : List Nat × List Nat :=
  blockLoopF (fun s b => keccakF1600 (xorIn s b)) d.length st d

/-- The two padding lines shared by `Sum256` and `Hasher.Sum256`:
`state[tlen] ^= 0x01` (Keccak domain separator) then
`state[rate-1] ^= 0x80` (pad10*1 end bit). -/
def padApply (st : List Nat) (tlen : Nat) : List Nat :=
  let st1 := st.set tlen (st.getD tlen 0 ^^^ 0x01)
  st1.set (rate - 1) (st1.getD (rate - 1) 0 ^^^ 0x80)

/-- Sum256 computes the Keccak-256 hash of data (keccak.go `Sum256`): absorb
full blocks into a fresh all-zero state, absorb the remaining tail, apply the
Keccak padding, permute once more and return the first 32 bytes. -/
def Sum256 (data : List Nat) : List Nat :=
  let lp := absorbLoop zeroState data
  (keccakF1600 (padApply (xorIn lp.1 lp.2) lp.2.length)).take 32

/-- Hasher is a streaming Keccak-256 hasher (keccak.go `Hasher`): the sponge
state, a rate-sized pending buffer and the count of pending bytes. -/
structure Hasher where
  state : List Nat
  buf : List Nat
  absorbed : Nat
deriving DecidableEq

/-- A freshly constructed hasher (the Go zero value `var h Hasher`). -/
def Hasher.new : Hasher := ⟨zeroState, List.replicate rate 0, 0⟩

/-- Reset resets the hasher to its initial state (keccak.go `Hasher.Reset`):
the state is zeroed and the pending count cleared; the pending buffer's
contents are left as they are. -/
def Hasher.Reset (h : Hasher) : Hasher := ⟨zeroState, h.buf, 0⟩

/-- Write absorbs data into the hasher (keccak.go `Hasher.Write`): top up the
pending buffer if it is non-empty (absorbing it if it fills), then absorb full
blocks directly from the input, then stash any leftover bytes in the buffer. -/
def Hasher.Write (h : Hasher) (p : List Nat) : Hasher :=
  let s1 : Hasher × List Nat :=
    if 0 < h.absorbed then
      let n := min (rate - h.absorbed) p.length
      let buf1 := overwrite h.buf h.absorbed p
      let a1 := h.absorbed + n
      if a1 = rate then
        (⟨keccakF1600 (xorIn h.state buf1), buf1, 0⟩, p.drop n)
      else
        (⟨h.state, buf1, a1⟩, p.drop n)
    else (h, p)
  let lp := absorbLoop s1.1.state s1.2
  if 0 < lp.2.length then
    ⟨lp.1, overwrite s1.1.buf 0 lp.2, min rate lp.2.length⟩
  else
    ⟨lp.1, s1.1.buf, s1.1.absorbed⟩

/-- Sum256 finalizes and returns the 32-byte Keccak-256 digest
(keccak.go `Hasher.Sum256`), computed from a copy of the state. -/
def Hasher.Sum256 (h : Hasher) : List Nat :=
  (keccakF1600 (padApply (xorIn h.state (h.buf.take h.absorbed)) h.absorbed)).take 32

/-- Model of the full method call `h.Sum256()`: the body starts with
`state := h.state`, a by-value copy of the 200-byte array, every subsequent
mutation targets that local copy, and nothing is ever assigned through the
receiver, so the call returns the digest together with the receiver's fields
exactly as the method body leaves them. -/
def Hasher.sum256Call (h : Hasher) : List Nat × Hasher :=
  let state0 := h.state
  let state1 := xorIn state0 (h.buf.take h.absorbed)
  let state2 := padApply state1 h.absorbed
  let state3 := keccakF1600 state2
  (state3.take 32, ⟨h.state, h.buf, h.absorbed⟩)

/-- Byte buffers: every entry is an actual byte value below 256. -/
abbrev Bytes (l : List Nat) : Prop := ∀ x ∈ l, x < 256

/-- Plain byte-for-byte XOR of `d` into the prefix of `st`, leaving the bytes
of `st` from index `len(d)` on untouched (the spec's description of
absorption, with no wide-word path and no permutation call). -/
def xorBytes (st d : List Nat) : List Nat :=
  List.zipWith (fun a b => a ^^^ b) st d ++ st.drop d.length

/-- The absorb loop of the spec's one-shot algorithm, with plain bytewise XOR
absorption. -/
def specLoop (st d : List Nat) : List Nat × List Nat :=
  blockLoopF (fun s b => keccakF1600 (xorBytes s b)) d.length st d

/-- Modelled from the claim wording: the one-shot algorithm on a 200-byte
all-zero state — while at least Rate bytes remain, XOR the next Rate bytes
into the state and permute; then XOR the tail in, XOR 0x01 into
state[len(tail)], XOR 0x80 into state[Rate-1], permute once more and return
the first 32 bytes. -/
def sum256Alg (data : List Nat) : List Nat :=
  let lp := specLoop zeroState data
  (keccakF1600 (padApply (xorBytes lp.1 lp.2) lp.2.length)).take 32

/-- The invariant tying a streaming hasher to the stream of bytes written so
far: the sponge state is the absorb loop's state on the stream, the pending
count is the stream length modulo the rate, and the pending prefix of the
buffer is exactly the absorb loop's leftover tail. -/
def Inv (h : Hasher) (d : List Nat) : Prop :=
  h.state = (absorbLoop zeroState d).1 ∧
  h.absorbed = d.length % rate ∧
  h.buf.take h.absorbed = (absorbLoop zeroState d).2 ∧
  h.buf.length = rate

/-! Basic properties of the fuel-indexed block loop. -/

theorem blockLoopF_fuel_succ (f : List Nat → List Nat → List Nat) :
    ∀ (fuel : Nat) (st d : List Nat), d.length ≤ fuel →
      blockLoopF f (fuel + 1) st d = blockLoopF f fuel st d := by
  intro fuel
  induction fuel with
  | zero =>
    intro st d hd
    have hnil : d = [] := List.eq_nil_of_length_eq_zero (Nat.le_zero.mp hd)
    subst hnil
    simp [blockLoopF, rate]
  | succ k ih =>
    intro st d hd
    by_cases h : rate ≤ d.length
    · have h2 : (d.drop rate).length ≤ k := by
        simp only [List.length_drop]
        simp only [rate] at h hd ⊢
        omega
      simp only [blockLoopF, if_pos h]
      exact ih _ _ h2
    · simp only [blockLoopF, if_neg h]

theorem blockLoopF_fuel (f : List Nat → List Nat → List Nat) :
    ∀ (fuel : Nat) (st d : List Nat), d.length ≤ fuel →
      blockLoopF f fuel st d = blockLoopF f d.length st d := by
  intro fuel
  induction fuel with
  | zero =>
    intro st d hd
    have h0 : d.length = 0 := Nat.le_zero.mp hd
    rw [h0]
  | succ k ih =>
    intro st d hd
    rcases Nat.lt_or_ge d.length (k + 1) with h | h
    · have hk : d.length ≤ k := Nat.lt_succ_iff.mp h
      rw [blockLoopF_fuel_succ f k st d hk, ih st d hk]
    · have : d.length = k + 1 := Nat.le_antisymm hd h
      rw [this]

theorem blockLoop_stop (f : List Nat → List Nat → List Nat) (st d : List Nat)
    (h : d.length < rate) : blockLoopF f d.length st d = (st, d) := by
  cases hl : d.length with
  | zero => rfl
  | succ m =>
    simp only [blockLoopF]
    rw [if_neg (Nat.not_le.mpr h)]

theorem blockLoop_step (f : List Nat → List Nat → List Nat) (st d : List Nat)
    (h : rate ≤ d.length) :
    blockLoopF f d.length st d =
      blockLoopF f (d.drop rate).length (f st (d.take rate)) (d.drop rate) := by
  obtain ⟨m, hm⟩ : ∃ m, d.length = m + 1 := by
    simp only [rate] at h; exact ⟨d.length - 1, by omega⟩
  rw [hm]
  simp only [blockLoopF]
  rw [if_pos h]
  apply blockLoopF_fuel
  simp only [List.length_drop, rate] at *
  omega

/-- Unfolding: when fewer than `rate` bytes remain the absorb loop stops. -/
theorem absorbLoop_nil (st d : List Nat) (h : d.length < rate) :
    absorbLoop st d = (st, d) :=
  blockLoop_stop _ st d h

/-- Unfolding: with at least `rate` bytes, the absorb loop absorbs a block,
permutes, and continues past it. -/
theorem absorbLoop_step (st d : List Nat) (h : rate ≤ d.length) :
    absorbLoop st d = absorbLoop (keccakF1600 (xorIn st (d.take rate))) (d.drop rate) := by
  have := blockLoop_step (fun s b => keccakF1600 (xorIn s b)) st d h
  simpa [absorbLoop] using this

theorem blockLoop_append (f : List Nat → List Nat → List Nat) :
    ∀ (n : Nat) (d e st : List Nat), d.length ≤ n →
      blockLoopF f (d ++ e).length st (d ++ e) =
        blockLoopF f ((blockLoopF f d.length st d).2 ++ e).length
          (blockLoopF f d.length st d).1 ((blockLoopF f d.length st d).2 ++ e) := by
  intro n
  induction n with
  | zero =>
    intro d e st hd
    have hnil : d = [] := List.eq_nil_of_length_eq_zero (Nat.le_zero.mp hd)
    subst hnil
    rfl
  | succ k ih =>
    intro d e st hd
    by_cases h : rate ≤ d.length
    · have h' : rate ≤ (d ++ e).length := by
        simp only [List.length_append]; omega
      rw [blockLoop_step f st (d ++ e) h']
      have htake : (d ++ e).take rate = d.take rate := by
        rw [List.take_append_eq_append_take]
        have : rate - d.length = 0 := by omega
        rw [this]
        simp
      have hdrop : (d ++ e).drop rate = d.drop rate ++ e := by
        rw [List.drop_append_eq_append_drop]
        have : rate - d.length = 0 := by omega
        rw [this]
        simp
      rw [htake, hdrop]
      have hlen : (d.drop rate).length ≤ k := by
        simp only [List.length_drop, rate] at *
        omega
      rw [ih (d.drop rate) e (f st (d.take rate)) hlen]
      rw [blockLoop_step f st d h]
    · rw [blockLoop_stop f st d (Nat.not_le.mp h)]

/-- The absorb loop over a concatenation: first run it on `d`, then continue
with the leftover tail of `d` followed by `e`. -/
theorem absorbLoop_append (st d e : List Nat) :
    absorbLoop st (d ++ e) = absorbLoop (absorbLoop st d).1 ((absorbLoop st d).2 ++ e) :=
  blockLoop_append _ d.length d e st (Nat.le_refl _)

theorem blockLoop_tail_length (f : List Nat → List Nat → List Nat) :
    ∀ (n : Nat) (st d : List Nat), d.length ≤ n →
      (blockLoopF f d.length st d).2.length = d.length % rate := by
  intro n
  induction n with
  | zero =>
    intro st d hd
    have hnil : d = [] := List.eq_nil_of_length_eq_zero (Nat.le_zero.mp hd)
    subst hnil
    rfl
  | succ k ih =>
    intro st d hd
    by_cases h : rate ≤ d.length
    · rw [blockLoop_step f st d h]
      have hlen : (d.drop rate).length ≤ k := by
        simp only [List.length_drop, rate] at *
        omega
      rw [ih _ _ hlen]
      simp only [List.length_drop, rate] at *
      omega
    · rw [blockLoop_stop f st d (Nat.not_le.mp h)]
      exact (Nat.mod_eq_of_lt (Nat.not_le.mp h)).symm

/-- The tail left by the absorb loop has length `d.length % rate`. -/
theorem absorbLoop_tail_length (st d : List Nat) :
    (absorbLoop st d).2.length = d.length % rate :=
  blockLoop_tail_length _ d.length st d (Nat.le_refl _)

theorem blockLoop_tail_mem (f : List Nat → List Nat → List Nat) :
    ∀ (n : Nat) (st d : List Nat), d.length ≤ n →
      ∀ b ∈ (blockLoopF f d.length st d).2, b ∈ d := by
  intro n
  induction n with
  | zero =>
    intro st d hd
    have hnil : d = [] := List.eq_nil_of_length_eq_zero (Nat.le_zero.mp hd)
    subst hnil
    intro b hb
    exact hb
  | succ k ih =>
    intro st d hd
    by_cases h : rate ≤ d.length
    · rw [blockLoop_step f st d h]
      intro b hb
      have hlen : (d.drop rate).length ≤ k := by
        simp only [List.length_drop, rate] at *
        omega
      exact List.drop_subset _ _ (ih _ _ hlen b hb)
    · rw [blockLoop_stop f st d (Nat.not_le.mp h)]
      intro b hb
      exact hb

/-- C3: Sum256 of the empty byte sequence equals the fixed reference digest
c5d2...a470, and Sum256 of the five ASCII bytes of "hello" equals
1c8a...eac8. -/
theorem c3_known_vectors :
    Sum256 [] =
      [0xc5, 0xd2, 0x46, 0x01, 0x86, 0xf7, 0x23, 0x3c, 0x92, 0x7e, 0x7d, 0xb2,
       0xdc, 0xc7, 0x03, 0xc0, 0xe5, 0x00, 0xb6, 0x53, 0xca, 0x82, 0x27, 0x3b,
       0x7b, 0xfa, 0xd8, 0x04, 0x5d, 0x85, 0xa4, 0x70] ∧
    Sum256 [0x68, 0x65, 0x6c, 0x6c, 0x6f] =
      [0x1c, 0x8a, 0xff, 0x95, 0x06, 0x85, 0xc2, 0xed, 0x4b, 0xc3, 0x17, 0x4f,
       0x34, 0x72, 0x28, 0x7b, 0x56, 0xd9, 0x51, 0x7b, 0x9c, 0x94, 0x81, 0x27,
       0x31, 0x9a, 0x09, 0xa7, 0xa3, 0x6d, 0xea, 0xc8] := by
  constructor <;> (set_option maxRecDepth 100000 in decide)

/-! Frame and invariant properties of the streaming hasher. -/

/-- Overwriting with the empty source leaves the buffer unchanged. -/
theorem overwrite_empty (dst : List Nat) (pos : Nat) : overwrite dst pos [] = dst := by
  simp [overwrite]

/-- C4: Hasher.Sum256 (finalize) is non-destructive: the method call computes
the digest on a private copy of the state and leaves the receiver's state,
pending buffer and pending count unmodified; hence two consecutive calls
return equal digests and subsequent Write calls continue the original
stream. -/
theorem c4_finalize_nondestructive : ∀ h : Hasher,
    h.sum256Call.2 = h ∧
    h.sum256Call.1 = h.Sum256 ∧
    h.sum256Call.2.sum256Call.1 = h.sum256Call.1 ∧
    ∀ p : List Nat, h.sum256Call.2.Write p = h.Write p := by
  intro h
  exact ⟨rfl, rfl, rfl, fun p => rfl⟩

/-- C10: writing an empty chunk is a no-op on any hasher whose pending count
satisfies the reachable-state invariant `absorbed < rate`. -/
theorem c10_write_empty_noop : ∀ h : Hasher, h.absorbed < rate → h.Write [] = h := by
  intro h ha
  obtain ⟨s, b, a⟩ := h
  change a < rate at ha
  simp only [Hasher.Write]
  have hnil : absorbLoop s [] = (s, []) := absorbLoop_nil _ _ (by simp [rate])
  simp only [List.length_nil, Nat.min_zero, Nat.add_zero, List.drop_nil]
  by_cases h0 : 0 < a
  · rw [if_pos h0]
    have hne : ¬ a = rate := Nat.ne_of_lt ha
    rw [if_neg hne]
    simp [overwrite_empty, hnil]
  · rw [if_neg h0]
    simp [hnil]

/-- The two sequential padding XORs at tail length `rate - 1` land on the same
byte and combine to a single XOR with 0x81 at index `rate - 1`. -/
theorem padApply_rate_sub_one (st : List Nat) :
    padApply st (rate - 1) = st.set (rate - 1) (st.getD (rate - 1) 0 ^^^ 0x81) := by
  unfold padApply
  rw [List.set_set]
  by_cases hl : rate - 1 < st.length
  · have h1 : (st.set (rate - 1) (st.getD (rate - 1) 0 ^^^ 0x01)).getD (rate - 1) 0 =
        st.getD (rate - 1) 0 ^^^ 0x01 := by
      rw [List.getD_eq_getElem?_getD, List.getElem?_set]
      simp [hl]
    have h2 : (0x01 : Nat) ^^^ 0x80 = 0x81 := by decide
    rw [h1, Nat.xor_assoc, h2]
  · have hle : st.length ≤ rate - 1 := Nat.not_lt.mp hl
    rw [List.set_eq_of_length_le hle, List.set_eq_of_length_le hle]

/-- C8: for inputs whose tail after the absorb loop has length exactly
`rate - 1` (length ≡ 135 mod 136) the two padding XORs of 0x01 and 0x80 land
on the same state byte `rate - 1`, combining to a XOR with 0x81 produced by
the two sequential XORs of `padApply`; the same holds for the streaming
finalize when the pending count is `rate - 1`. -/
theorem c8_pad_same_byte :
    (∀ st : List Nat,
      padApply st (rate - 1) = st.set (rate - 1) (st.getD (rate - 1) 0 ^^^ 0x81)) ∧
    (∀ d : List Nat, d.length % rate = rate - 1 →
      (absorbLoop zeroState d).2.length = rate - 1 ∧
      Sum256 d = (keccakF1600 ((xorIn (absorbLoop zeroState d).1 (absorbLoop zeroState d).2).set
        (rate - 1)
        ((xorIn (absorbLoop zeroState d).1 (absorbLoop zeroState d).2).getD (rate - 1) 0 ^^^
          0x81))).take 32) ∧
    (∀ h : Hasher, h.absorbed = rate - 1 →
      h.Sum256 = (keccakF1600 ((xorIn h.state (h.buf.take (rate - 1))).set (rate - 1)
        ((xorIn h.state (h.buf.take (rate - 1))).getD (rate - 1) 0 ^^^ 0x81))).take 32) := by
  refine ⟨fun st => padApply_rate_sub_one st, fun d hd => ?_, fun h hh => ?_⟩
  · have ht : (absorbLoop zeroState d).2.length = rate - 1 := by
      rw [absorbLoop_tail_length, hd]
    refine ⟨ht, ?_⟩
    show (keccakF1600 (padApply _ (absorbLoop zeroState d).2.length)).take 32 = _
    rw [ht, padApply_rate_sub_one]
  · show (keccakF1600 (padApply (xorIn h.state (h.buf.take h.absorbed)) h.absorbed)).take 32 = _
    rw [hh, padApply_rate_sub_one]

/-- C8 witness at the concrete input of 135 zero bytes and a hasher with
pending count 135. -/
theorem c8_pad_same_byte_witness :
    ((List.replicate 135 0).length % rate = rate - 1) ∧
    ((absorbLoop zeroState (List.replicate 135 0)).2.length = rate - 1 ∧
      Sum256 (List.replicate 135 0) =
        (keccakF1600 ((xorIn (absorbLoop zeroState (List.replicate 135 0)).1
            (absorbLoop zeroState (List.replicate 135 0)).2).set (rate - 1)
          ((xorIn (absorbLoop zeroState (List.replicate 135 0)).1
            (absorbLoop zeroState (List.replicate 135 0)).2).getD (rate - 1) 0 ^^^
            0x81))).take 32) :=
  ⟨by simp [rate], c8_pad_same_byte.2.1 (List.replicate 135 0) (by simp [rate])⟩

/-- The leftover of an absorb loop, clamped to `rate`, is shorter than `rate`. -/
theorem min_tail_lt (st d : List Nat) : min rate (absorbLoop st d).2.length < rate := by
  have h1 := absorbLoop_tail_length st d
  have h2 : d.length % rate < rate := Nat.mod_lt _ (by simp [rate])
  omega

/-- Writing any chunk preserves the pending-count invariant. -/
theorem write_absorbed_lt (h : Hasher) (p : List Nat) (ha : h.absorbed < rate) :
    (h.Write p).absorbed < rate := by
  obtain ⟨s, b, a⟩ := h
  change a < rate at ha
  simp only [Hasher.Write]
  by_cases h0 : 0 < a
  · rw [if_pos h0]
    by_cases he : a + min (rate - a) p.length = rate
    · rw [if_pos he]
      split
      · exact min_tail_lt _ _
      · simp [rate]
    · rw [if_neg he]
      split
      · exact min_tail_lt _ _
      · show a + min (rate - a) p.length < rate
        have h1 : min (rate - a) p.length ≤ rate - a := Nat.min_le_left _ _
        omega
  · rw [if_neg h0]
    split
    · exact min_tail_lt _ _
    · exact ha

/-- C6: the invariant `PendingCount < Rate` holds for every reachable hasher
state: after construction, after Reset, after any Write on a state satisfying
it, and along any sequence of Write calls from a fresh hasher. -/
theorem c6_pending_count_invariant :
    Hasher.new.absorbed < rate ∧
    (∀ h : Hasher, h.Reset.absorbed < rate) ∧
    (∀ (h : Hasher) (p : List Nat), h.absorbed < rate → (h.Write p).absorbed < rate) ∧
    (∀ cs : List (List Nat), (cs.foldl Hasher.Write Hasher.new).absorbed < rate) := by
  have hrate : 0 < rate := by simp [rate]
  refine ⟨hrate, fun h => hrate, fun h p ha => write_absorbed_lt h p ha, fun cs => ?_⟩
  have aux : ∀ (cs : List (List Nat)) (h : Hasher), h.absorbed < rate →
      (cs.foldl Hasher.Write h).absorbed < rate := by
    intro cs
    induction cs with
    | nil => intro h ha; exact ha
    | cons c cs ih =>
      intro h ha
      exact ih (h.Write c) (write_absorbed_lt h c ha)
  exact aux cs Hasher.new hrate

/-- C6 witness: a concrete hasher with pending count 3 keeps the invariant
after writing a concrete chunk. -/
theorem c6_pending_count_invariant_witness :
    ((⟨zeroState, List.replicate rate 0, 3⟩ : Hasher).absorbed < rate) ∧
    ((⟨zeroState, List.replicate rate 0, 3⟩ : Hasher).Write [7, 7, 7]).absorbed < rate :=
  ⟨by decide, c6_pending_count_invariant.2.2.1 _ [7, 7, 7] (by decide)⟩

/-- C10 witness: writing the empty chunk to a concrete hasher with pending
count 3 leaves it unchanged. -/
theorem c10_write_empty_noop_witness :
    ((⟨zeroState, List.replicate rate 0, 3⟩ : Hasher).absorbed < rate) ∧
    (⟨zeroState, List.replicate rate 0, 3⟩ : Hasher).Write [] =
      (⟨zeroState, List.replicate rate 0, 3⟩ : Hasher) :=
  ⟨by decide, c10_write_empty_noop _ (by decide)⟩

/-! Streaming/one-shot equivalence: the write invariant. -/

/-- Overwriting never changes the buffer's length. -/
theorem overwrite_length (dst : List Nat) (pos : Nat) (src : List Nat) :
    (overwrite dst pos src).length = dst.length := by
  simp [overwrite]
  omega

/-- Overwriting from position 0 with a source that fits puts the source at the
front of the buffer. -/
theorem overwrite_take_zero (dst src : List Nat) (h : src.length ≤ dst.length) :
    (overwrite dst 0 src).take src.length = src := by
  simp only [overwrite, List.take_zero, Nat.sub_zero, List.nil_append, Nat.zero_add]
  rw [List.take_of_length_le h, List.take_append_of_le_length (Nat.le_refl _), List.take_length]

theorem inv_new : Inv Hasher.new [] := by
  have h := absorbLoop_nil zeroState [] (by simp [rate])
  refine ⟨?_, ?_, ?_, ?_⟩
  · rw [h]
    rfl
  · rfl
  · rw [h]
    rfl
  · simp [Hasher.new]

/-- The common closing step of `Hasher.Write`: once the remaining input `q`
satisfies `absorbLoop zeroState dtot = absorbLoop st1 q` and the pending
count entering the final branch is 0, the result satisfies the invariant. -/
theorem write_finish (st1 bu q dtot : List Nat)
    (hloop : absorbLoop zeroState dtot = absorbLoop st1 q)
    (hlen : bu.length = rate) :
    Inv (if 0 < (absorbLoop st1 q).2.length then
          (⟨(absorbLoop st1 q).1, overwrite bu 0 (absorbLoop st1 q).2,
            min rate (absorbLoop st1 q).2.length⟩ : Hasher)
        else ⟨(absorbLoop st1 q).1, bu, 0⟩) dtot := by
  have htail : (absorbLoop st1 q).2.length = dtot.length % rate := by
    rw [← hloop]
    exact absorbLoop_tail_length _ _
  have hmodlt : dtot.length % rate < rate := Nat.mod_lt _ (by simp [rate])
  by_cases hq : 0 < (absorbLoop st1 q).2.length
  · rw [if_pos hq]
    have hmin : min rate (absorbLoop st1 q).2.length = (absorbLoop st1 q).2.length := by
      omega
    refine ⟨?_, ?_, ?_, ?_⟩
    · show (absorbLoop st1 q).1 = (absorbLoop zeroState dtot).1
      rw [hloop]
    · show min rate (absorbLoop st1 q).2.length = dtot.length % rate
      rw [hmin, htail]
    · show (overwrite bu 0 (absorbLoop st1 q).2).take (min rate (absorbLoop st1 q).2.length) =
        (absorbLoop zeroState dtot).2
      rw [hloop, hmin]
      exact overwrite_take_zero bu _ (by omega)
    · show (overwrite bu 0 (absorbLoop st1 q).2).length = rate
      rw [overwrite_length, hlen]
  · rw [if_neg hq]
    have hnil : (absorbLoop st1 q).2 = [] := List.eq_nil_of_length_eq_zero (by omega)
    refine ⟨?_, ?_, ?_, hlen⟩
    · show (absorbLoop st1 q).1 = (absorbLoop zeroState dtot).1
      rw [hloop]
    · show (0 : Nat) = dtot.length % rate
      omega
    · show bu.take 0 = (absorbLoop zeroState dtot).2
      rw [hloop, hnil]
      rfl

/-- Write maintains the invariant: after writing chunk `p` on top of stream
`d`, the hasher represents the stream `d ++ p`. -/
theorem write_inv (h : Hasher) (d p : List Nat) (hI : Inv h d) :
    Inv (h.Write p) (d ++ p) := by
  obtain ⟨s, b, a⟩ := h
  obtain ⟨hs, ha, hb, hlen⟩ := hI
  change s = (absorbLoop zeroState d).1 at hs
  change a = d.length % rate at ha
  change b.take a = (absorbLoop zeroState d).2 at hb
  change b.length = rate at hlen
  have hrate : (0 : Nat) < rate := by simp [rate]
  have halt : a < rate := by
    rw [ha]; exact Nat.mod_lt _ hrate
  have hTlen : (absorbLoop zeroState d).2.length = a := by
    rw [absorbLoop_tail_length, ha]
  have hcomp := absorbLoop_append zeroState d p
  simp only [Hasher.Write]
  by_cases h0 : 0 < a
  · rw [if_pos h0]
    by_cases he : a + min (rate - a) p.length = rate
    · rw [if_pos he]
      have hn : min (rate - a) p.length = rate - a := by omega
      have hbuf1 : overwrite b a p = (absorbLoop zeroState d).2 ++ p.take (rate - a) := by
        simp only [overwrite, hlen, hb]
        rw [List.drop_eq_nil_of_le (by omega : b.length ≤ a + p.length), List.append_nil]
      have hge : rate ≤ ((absorbLoop zeroState d).2 ++ p).length := by
        rw [List.length_append, hTlen]; omega
      have htake2 : ((absorbLoop zeroState d).2 ++ p).take rate =
          (absorbLoop zeroState d).2 ++ p.take (rate - a) := by
        rw [List.take_append_eq_append_take, hTlen,
          List.take_of_length_le (by omega : (absorbLoop zeroState d).2.length ≤ rate)]
      have hdrop2 : ((absorbLoop zeroState d).2 ++ p).drop rate = p.drop (rate - a) := by
        rw [List.drop_append_eq_append_drop, hTlen,
          List.drop_eq_nil_of_le (by omega : (absorbLoop zeroState d).2.length ≤ rate),
          List.nil_append]
      have hloop : absorbLoop zeroState (d ++ p) =
          absorbLoop (keccakF1600 (xorIn s (overwrite b a p)))
            (p.drop (min (rate - a) p.length)) := by
        rw [hcomp, absorbLoop_step _ _ hge, htake2, hdrop2, hn, hbuf1, hs]
      exact write_finish _ _ _ _ hloop (by rw [overwrite_length, hlen])
    · rw [if_neg he]
      have hn : min (rate - a) p.length = p.length := by omega
      have hplt : a + p.length < rate := by omega
      have hdropnil : p.drop (min (rate - a) p.length) = [] := by
        rw [hn, List.drop_length]
      rw [hdropnil, absorbLoop_nil s [] (by simp [rate])]
      rw [if_neg (show ¬ 0 < ((s, ([] : List Nat))).2.length by simp)]
      have hsmall2 : absorbLoop zeroState (d ++ p) =
          ((absorbLoop zeroState d).1, (absorbLoop zeroState d).2 ++ p) := by
        rw [hcomp]
        exact absorbLoop_nil _ _ (by rw [List.length_append, hTlen]; omega)
      have hbuf1 : overwrite b a p =
          (absorbLoop zeroState d).2 ++ p ++ b.drop (a + p.length) := by
        simp only [overwrite, hlen, hb]
        rw [List.take_of_length_le (by omega : p.length ≤ rate - a)]
      have hl2 : ((absorbLoop zeroState d).2 ++ p).length = a + p.length := by
        rw [List.length_append, hTlen]
      refine ⟨?_, ?_, ?_, ?_⟩
      · show s = (absorbLoop zeroState (d ++ p)).1
        rw [hsmall2, hs]
      · show a + min (rate - a) p.length = (d ++ p).length % rate
        rw [hn, List.length_append]
        have hdl : d.length % rate = a := ha.symm
        simp only [rate] at hdl hplt ⊢
        omega
      · show (overwrite b a p).take (a + min (rate - a) p.length) =
          (absorbLoop zeroState (d ++ p)).2
        rw [hsmall2]
        show (overwrite b a p).take (a + min (rate - a) p.length) =
          (absorbLoop zeroState d).2 ++ p
        rw [hn, hbuf1, ← hl2, List.take_left]
      · show (overwrite b a p).length = rate
        rw [overwrite_length, hlen]
  · rw [if_neg h0]
    have ha0 : a = 0 := by omega
    subst ha0
    have hTnil : (absorbLoop zeroState d).2 = [] :=
      List.eq_nil_of_length_eq_zero hTlen
    have hloop : absorbLoop zeroState (d ++ p) = absorbLoop s p := by
      rw [hcomp, hTnil, List.nil_append, hs]
    exact write_finish _ _ _ _ hloop hlen

/-- Folding writes over a chunk list extends the represented stream by the
concatenation of the chunks. -/
theorem foldl_write_inv (cs : List (List Nat)) : ∀ (h : Hasher) (d : List Nat), Inv h d →
    Inv (cs.foldl Hasher.Write h) (d ++ cs.flatten) := by
  induction cs with
  | nil =>
    intro h d hI
    simpa using hI
  | cons c cs ih =>
    intro h d hI
    have h2 := ih (h.Write c) (d ++ c) (write_inv h d c hI)
    simpa [List.append_assoc] using h2

/-- A hasher satisfying the invariant finalizes to the one-shot digest of the
represented stream. -/
theorem inv_digest (h : Hasher) (d : List Nat) (hI : Inv h d) : h.Sum256 = Sum256 d := by
  obtain ⟨hs, ha, hb, _⟩ := hI
  show (keccakF1600 (padApply (xorIn h.state (h.buf.take h.absorbed)) h.absorbed)).take 32 = _
  rw [hs, hb, ha, ← absorbLoop_tail_length zeroState d]
  rfl

/-- C1: for every partition of a byte stream into chunks, feeding the chunks
through repeated Hasher.Write calls and finalizing with Hasher.Sum256 yields
the same digest as the one-shot Sum256 of the concatenation (the non-emptiness
of the chunks is not even needed). -/
theorem c1_streaming_equals_oneshot (cs : List (List Nat))
    (_hne : ∀ c ∈ cs, c ≠ []) :
    (cs.foldl Hasher.Write Hasher.new).Sum256 = Sum256 cs.flatten := by
  have h := foldl_write_inv cs Hasher.new [] inv_new
  rw [List.nil_append] at h
  exact inv_digest _ _ h

/-- C1 witness at the concrete partition [[1], [2, 3]]. -/
theorem c1_streaming_equals_oneshot_witness :
    (∀ c ∈ ([[1], [2, 3]] : List (List Nat)), c ≠ []) ∧
    (([[1], [2, 3]] : List (List Nat)).foldl Hasher.Write Hasher.new).Sum256 =
      Sum256 ([[1], [2, 3]] : List (List Nat)).flatten :=
  ⟨by decide, c1_streaming_equals_oneshot _ (by decide)⟩

/-- C5: Reset zeroes the sponge state and the pending count, and the reset
hasher is observationally equivalent to a freshly constructed one: every
subsequent sequence of writes produces the same digest on both. -/
theorem c5_reset_equivalent_to_fresh (cs0 cs : List (List Nat)) :
    (cs0.foldl Hasher.Write Hasher.new).Reset.state = zeroState ∧
    (cs0.foldl Hasher.Write Hasher.new).Reset.absorbed = 0 ∧
    (cs.foldl Hasher.Write (cs0.foldl Hasher.Write Hasher.new).Reset).Sum256 =
      (cs.foldl Hasher.Write Hasher.new).Sum256 := by
  have h0 := foldl_write_inv cs0 Hasher.new [] inv_new
  have hnil := absorbLoop_nil zeroState [] (by simp [rate])
  have hInvR : Inv (cs0.foldl Hasher.Write Hasher.new).Reset [] := by
    refine ⟨?_, ?_, ?_, h0.2.2.2⟩
    · show zeroState = (absorbLoop zeroState []).1
      rw [hnil]
    · rfl
    · show (cs0.foldl Hasher.Write Hasher.new).buf.take 0 = (absorbLoop zeroState []).2
      rw [hnil]
      rfl
  have h1 := foldl_write_inv cs _ [] hInvR
  have h2 := foldl_write_inv cs Hasher.new [] inv_new
  rw [List.nil_append] at h1 h2
  exact ⟨rfl, rfl, by rw [inv_digest _ _ h1, inv_digest _ _ h2]⟩

/-! Totality: every operation is defined on every input and produces
well-formed results. -/

theorem lanesToBytes_length (A : List Nat) : (lanesToBytes A).length = 8 * A.length := by
  induction A with
  | nil => rfl
  | cons x xs ih =>
    simp only [lanesToBytes, List.map_cons, List.flatten_cons, List.length_append] at *
    simp only [le64bytes, List.length_cons, List.length_nil] at *
    omega

theorem keccakRound_length (A : List Nat) (rc : Nat) : (keccakRound A rc).length = 25 := by
  simp [keccakRound, chi, rhoPi, theta]

theorem foldl_keccakRound_length (rcs : List Nat) :
    ∀ A : List Nat, A.length = 25 → (rcs.foldl keccakRound A).length = 25 := by
  induction rcs with
  | nil => intro A hA; exact hA
  | cons r rs ih =>
    intro A hA
    simp only [List.foldl_cons]
    exact ih _ (keccakRound_length A r)

theorem bytesToLanes_length (st : List Nat) : (bytesToLanes st).length = 25 := by
  simp [bytesToLanes]

/-- The permutation always returns a 200-byte state. -/
theorem keccakF1600_length (st : List Nat) : (keccakF1600 st).length = 200 := by
  unfold keccakF1600
  rw [lanesToBytes_length, foldl_keccakRound_length _ _ (bytesToLanes_length st)]

theorem xorInTail_length (d : List Nat) :
    ∀ (k i : Nat) (st : List Nat), (xorInTail d i k st).length = st.length := by
  intro k
  induction k with
  | zero => intro i st; rfl
  | succ n ih =>
    intro i st
    simp only [xorInTail]
    rw [ih, List.length_set]

theorem xorInLanes_length (d : List Nat) :
    ∀ (k i : Nat) (st : List Nat), (xorInLanes d i k st).length = st.length := by
  intro k
  induction k with
  | zero => intro i st; rfl
  | succ n ih =>
    intro i st
    simp only [xorInLanes]
    rw [ih, overwrite_length]

/-- `xorIn` never changes the state's length. -/
theorem xorIn_length (st d : List Nat) : (xorIn st d).length = st.length := by
  simp only [xorIn]
  rw [xorInTail_length, xorInLanes_length]

theorem absorbLoop_state_shape : ∀ (n : Nat) (st d : List Nat), d.length ≤ n →
    (absorbLoop st d).1 = st ∨ ∃ x, (absorbLoop st d).1 = keccakF1600 x := by
  intro n
  induction n with
  | zero =>
    intro st d hd
    left
    have hnil : d = [] := List.eq_nil_of_length_eq_zero (Nat.le_zero.mp hd)
    subst hnil
    rw [absorbLoop_nil st [] (by simp [rate])]
  | succ k ih =>
    intro st d hd
    by_cases h : rate ≤ d.length
    · rw [absorbLoop_step st d h]
      have hk : (d.drop rate).length ≤ k := by
        simp only [List.length_drop, rate] at *
        omega
      rcases ih _ (d.drop rate) hk with h1 | ⟨x, hx⟩
      · right
        exact ⟨_, h1⟩
      · right
        exact ⟨x, hx⟩
    · left
      rw [absorbLoop_nil st d (Nat.not_le.mp h)]

theorem absorbLoop_state_length (st d : List Nat) (h : st.length = 200) :
    (absorbLoop st d).1.length = 200 := by
  rcases absorbLoop_state_shape d.length st d (Nat.le_refl _) with h1 | ⟨x, hx⟩
  · rw [h1, h]
  · rw [hx, keccakF1600_length]

/-- Write keeps the pending buffer exactly `rate` bytes long. -/
theorem write_buf_length (h : Hasher) (p : List Nat) (hb : h.buf.length = rate) :
    (h.Write p).buf.length = rate := by
  obtain ⟨s, b, a⟩ := h
  change b.length = rate at hb
  simp only [Hasher.Write]
  by_cases h0 : 0 < a
  · rw [if_pos h0]
    by_cases he : a + min (rate - a) p.length = rate
    · rw [if_pos he]
      split
      · show (overwrite (overwrite b a p) 0 _).length = rate
        rw [overwrite_length, overwrite_length, hb]
      · show (overwrite b a p).length = rate
        rw [overwrite_length, hb]
    · rw [if_neg he]
      split
      · show (overwrite (overwrite b a p) 0 _).length = rate
        rw [overwrite_length, overwrite_length, hb]
      · show (overwrite b a p).length = rate
        rw [overwrite_length, hb]
  · rw [if_neg h0]
    split
    · show (overwrite b 0 _).length = rate
      rw [overwrite_length, hb]
    · exact hb

/-- Write keeps the sponge state exactly 200 bytes long. -/
theorem write_state_length (h : Hasher) (p : List Nat) (hs : h.state.length = 200) :
    (h.Write p).state.length = 200 := by
  obtain ⟨s, b, a⟩ := h
  change s.length = 200 at hs
  simp only [Hasher.Write]
  by_cases h0 : 0 < a
  · rw [if_pos h0]
    by_cases he : a + min (rate - a) p.length = rate
    · rw [if_pos he]
      split <;> exact absorbLoop_state_length _ _ (keccakF1600_length _)
    · rw [if_neg he]
      split <;> exact absorbLoop_state_length _ _ hs
  · rw [if_neg h0]
    split <;> exact absorbLoop_state_length _ _ hs

/-- C9: the hashing operations are total: for every input (empty, one full
rate block, or arbitrarily long) Sum256 and Hasher.Sum256 return a 32-byte
digest, the absorb loop's leftover (the index of the 0x01 padding XOR) is
always below `rate`, and Write always keeps the pending buffer at `rate`
bytes and the sponge state at 200 bytes, so every state access stays in
bounds. -/
theorem c9_totality :
    (∀ d : List Nat, (Sum256 d).length = 32) ∧
    (∀ h : Hasher, h.Sum256.length = 32) ∧
    (∀ st d : List Nat, (absorbLoop st d).2.length < rate) ∧
    (∀ (h : Hasher) (p : List Nat), h.buf.length = rate → (h.Write p).buf.length = rate) ∧
    (∀ (h : Hasher) (p : List Nat), h.state.length = 200 → (h.Write p).state.length = 200) := by
  refine ⟨?_, ?_, ?_, write_buf_length, write_state_length⟩
  · intro d
    show ((keccakF1600 _).take 32).length = 32
    rw [List.length_take, keccakF1600_length]
    decide
  · intro h
    show ((keccakF1600 _).take 32).length = 32
    rw [List.length_take, keccakF1600_length]
    decide
  · intro st d
    rw [absorbLoop_tail_length]
    exact Nat.mod_lt _ (by simp [rate])

/-- C9 witness at the fresh hasher and a concrete two-byte chunk. -/
theorem c9_totality_witness :
    (Hasher.new.buf.length = rate ∧ (Hasher.new.Write [1, 2]).buf.length = rate) ∧
    (Hasher.new.state.length = 200 ∧ (Hasher.new.Write [1, 2]).state.length = 200) :=
  ⟨⟨List.length_replicate .., c9_totality.2.2.2.1 Hasher.new [1, 2] (List.length_replicate ..)⟩,
   ⟨List.length_replicate .., c9_totality.2.2.2.2 Hasher.new [1, 2] (List.length_replicate ..)⟩⟩

/-! Bitwise groundwork: the wide-word XOR path of `xorIn` agrees with plain
byte-for-byte XOR. -/

theorem bytes_getD (l : List Nat) (h : Bytes l) (i : Nat) : l.getD i 0 < 256 := by
  rcases Nat.lt_or_ge i l.length with hi | hi
  · rw [List.getD_eq_getElem l 0 hi]
    exact h _ (List.getElem_mem _)
  · rw [List.getD_eq_getElem?_getD, List.getElem?_eq_none hi]
    decide

theorem bytes_take (l : List Nat) (h : Bytes l) (n : Nat) : Bytes (l.take n) :=
  fun x hx => h x (List.take_subset _ _ hx)

theorem bytes_drop (l : List Nat) (h : Bytes l) (n : Nat) : Bytes (l.drop n) :=
  fun x hx => h x (List.drop_subset _ _ hx)

theorem bytes_le64bytes (v : Nat) : Bytes (le64bytes v) := by
  intro x hx
  simp only [le64bytes, List.mem_cons, List.not_mem_nil, or_false] at hx
  rcases hx with h | h | h | h | h | h | h | h <;> subst h <;> exact Nat.mod_lt _ (by omega)

theorem bytes_overwrite (dst : List Nat) (pos : Nat) (src : List Nat)
    (hd : Bytes dst) (hs : Bytes src) : Bytes (overwrite dst pos src) := by
  intro x hx
  simp only [overwrite, List.mem_append] at hx
  rcases hx with (h | h) | h
  · exact hd _ (List.take_subset _ _ h)
  · exact hs _ (List.take_subset _ _ h)
  · exact hd _ (List.drop_subset _ _ h)

theorem bytes_zeroState : Bytes zeroState := by
  intro x hx
  simp only [zeroState] at hx
  rw [List.eq_of_mem_replicate hx]
  decide

/-- Disjoint OR is addition: if `a` fits below bit `k`, `a ||| b <<< k` is
`a + b * 2 ^ k`. -/
theorem lor_shift_add (a b k : Nat) (h : a < 2 ^ k) : a ||| b <<< k = a + b * 2 ^ k := by
  apply Nat.eq_of_testBit_eq
  intro j
  rw [Nat.testBit_or, Nat.testBit_shiftLeft]
  have hsum : a + b * 2 ^ k = 2 ^ k * b + a := by ring
  rw [hsum, Nat.testBit_mul_pow_two_add b h j]
  by_cases hj : j < k
  · rw [if_pos hj]
    have : ¬ (j ≥ k) := by omega
    simp [this]
  · rw [if_neg hj]
    have hge : j ≥ k := by omega
    have hfalse : a.testBit j = false :=
      Nat.testBit_lt_two_pow (lt_of_lt_of_le h (Nat.pow_le_pow_right (by omega) hge))
    simp [hge, hfalse]

/-- The little-endian OR chain of 8 bytes is their base-256 sum. -/
theorem lor_chain_sum (b0 b1 b2 b3 b4 b5 b6 b7 : Nat)
    (h0 : b0 < 256) (h1 : b1 < 256) (h2 : b2 < 256) (h3 : b3 < 256)
    (h4 : b4 < 256) (h5 : b5 < 256) (h6 : b6 < 256) (_h7 : b7 < 256) :
    b0 ||| b1 <<< 8 ||| b2 <<< 16 ||| b3 <<< 24 ||| b4 <<< 32 ||| b5 <<< 40 |||
      b6 <<< 48 ||| b7 <<< 56 =
    b0 + b1 * 2 ^ 8 + b2 * 2 ^ 16 + b3 * 2 ^ 24 + b4 * 2 ^ 32 + b5 * 2 ^ 40 +
      b6 * 2 ^ 48 + b7 * 2 ^ 56 := by
  rw [lor_shift_add b0 b1 8 (by omega)]
  rw [lor_shift_add (b0 + b1 * 2 ^ 8) b2 16 (by omega)]
  rw [lor_shift_add (b0 + b1 * 2 ^ 8 + b2 * 2 ^ 16) b3 24 (by omega)]
  rw [lor_shift_add (b0 + b1 * 2 ^ 8 + b2 * 2 ^ 16 + b3 * 2 ^ 24) b4 32 (by omega)]
  rw [lor_shift_add (b0 + b1 * 2 ^ 8 + b2 * 2 ^ 16 + b3 * 2 ^ 24 + b4 * 2 ^ 32) b5 40
    (by omega)]
  rw [lor_shift_add (b0 + b1 * 2 ^ 8 + b2 * 2 ^ 16 + b3 * 2 ^ 24 + b4 * 2 ^ 32 + b5 * 2 ^ 40)
    b6 48 (by omega)]
  rw [lor_shift_add
    (b0 + b1 * 2 ^ 8 + b2 * 2 ^ 16 + b3 * 2 ^ 24 + b4 * 2 ^ 32 + b5 * 2 ^ 40 + b6 * 2 ^ 48)
    b7 56 (by omega)]

/-- Extracting byte `j` of a little-endian 64-bit read recovers the byte. -/
theorem le64_digit (bs : List Nat) (hb : Bytes bs) (j : Nat) (hj : j < 8) :
    le64 bs >>> (8 * j) % 256 = bs.getD j 0 := by
  have hD : ∀ i, bs.getD i 0 < 256 := bytes_getD bs hb
  simp only [le64]
  rw [lor_chain_sum _ _ _ _ _ _ _ _ (hD 0) (hD 1) (hD 2) (hD 3) (hD 4) (hD 5) (hD 6) (hD 7),
    Nat.shiftRight_eq_div_pow]
  have g0 := hD 0
  have g1 := hD 1
  have g2 := hD 2
  have g3 := hD 3
  have g4 := hD 4
  have g5 := hD 5
  have g6 := hD 6
  have g7 := hD 7
  interval_cases j <;> norm_num at g0 g1 g2 g3 g4 g5 g6 g7 ⊢ <;> omega

/-- Byte extraction commutes with XOR. -/
theorem digit_xor (x y s : Nat) :
    (x ^^^ y) >>> s % 256 = (x >>> s % 256) ^^^ (y >>> s % 256) := by
  have h256 : (256 : Nat) = 2 ^ 8 := by norm_num
  rw [h256]
  apply Nat.eq_of_testBit_eq
  intro i
  simp only [Nat.testBit_mod_two_pow, Nat.testBit_xor, Nat.testBit_shiftRight]
  by_cases hi : i < 8 <;> simp [hi]

theorem le64bytes_getD (v j : Nat) (hj : j < 8) :
    (le64bytes v).getD j 0 = v >>> (8 * j) % 256 := by
  interval_cases j <;> norm_num [le64bytes]

theorem getD_drop (l : List Nat) (n j : Nat) : (l.drop n).getD j 0 = l.getD (n + j) 0 := by
  rw [List.getD_eq_getElem?_getD, List.getD_eq_getElem?_getD, List.getElem?_drop]

/-- Two lists of equal length with equal entries (via `getD`) are equal. -/
theorem ext_getD (l1 l2 : List Nat) (hl : l1.length = l2.length)
    (h : ∀ m, l1.getD m 0 = l2.getD m 0) : l1 = l2 := by
  apply List.ext_getElem?
  intro i
  rcases Nat.lt_or_ge i l1.length with hi | hi
  · have hi2 : i < l2.length := by omega
    rw [List.getElem?_eq_getElem hi, List.getElem?_eq_getElem hi2]
    have hm := h i
    rw [List.getD_eq_getElem l1 0 hi, List.getD_eq_getElem l2 0 hi2] at hm
    rw [hm]
  · rw [List.getElem?_eq_none hi, List.getElem?_eq_none (by omega)]

/-- Pointwise description of `overwrite` when the source fits. -/
theorem overwrite_getD (dst : List Nat) (pos : Nat) (src : List Nat)
    (hfit : pos + src.length ≤ dst.length) (m : Nat) :
    (overwrite dst pos src).getD m 0 =
      if pos ≤ m ∧ m < pos + src.length then src.getD (m - pos) 0 else dst.getD m 0 := by
  have hA : (dst.take pos).length = pos := by
    rw [List.length_take]
    omega
  have hsrc : src.take (dst.length - pos) = src := List.take_of_length_le (by omega)
  simp only [overwrite, hsrc]
  by_cases hm1 : m < pos
  · rw [if_neg (by omega)]
    rw [List.getD_eq_getElem?_getD, List.getD_eq_getElem?_getD]
    rw [List.getElem?_append_left (by rw [List.length_append, hA]; omega)]
    rw [List.getElem?_append_left (by rw [hA]; omega)]
    rw [List.getElem?_take]
    rw [if_pos hm1]
  · by_cases hm2 : m < pos + src.length
    · rw [if_pos ⟨by omega, hm2⟩]
      rw [List.getD_eq_getElem?_getD, List.getD_eq_getElem?_getD]
      rw [List.getElem?_append_left (by rw [List.length_append, hA]; omega)]
      rw [List.getElem?_append_right (by rw [hA]; omega)]
      rw [hA]
    · rw [if_neg (by omega)]
      rw [List.getD_eq_getElem?_getD, List.getD_eq_getElem?_getD]
      rw [List.getElem?_append_right (by rw [List.length_append, hA]; omega)]
      rw [List.getElem?_drop]
      have hidx : pos + src.length + (m - (dst.take pos ++ src).length) = m := by
        rw [List.length_append, hA]
        omega
      rw [hidx]

/-- Pointwise description of the word loop of `xorIn`: processing `k` lanes
from lane `i` XORs `d` into the state bytes of `[8i, 8(i+k))` and touches
nothing else. -/
theorem xorInLanes_getD (d : List Nat) (hd : Bytes d) :
    ∀ (k i : Nat) (st : List Nat), Bytes st → 8 * (i + k) ≤ st.length →
      8 * (i + k) ≤ d.length →
      Bytes (xorInLanes d i k st) ∧
      ∀ m, (xorInLanes d i k st).getD m 0 =
        if 8 * i ≤ m ∧ m < 8 * (i + k) then st.getD m 0 ^^^ d.getD m 0
        else st.getD m 0 := by
  intro k
  induction k with
  | zero =>
    intro i st hst hb1 hb2
    refine ⟨hst, fun m => ?_⟩
    rw [if_neg (by omega)]
    rfl
  | succ n ih =>
    intro i st hst hb1 hb2
    simp only [xorInLanes]
    have hst' : Bytes (overwrite st (8 * i)
        (le64bytes (le64 (st.drop (8 * i)) ^^^ le64 (d.drop (8 * i))))) :=
      bytes_overwrite _ _ _ hst (bytes_le64bytes _)
    have hlen' : (overwrite st (8 * i)
        (le64bytes (le64 (st.drop (8 * i)) ^^^ le64 (d.drop (8 * i))))).length = st.length :=
      overwrite_length _ _ _
    have h8 : (le64bytes (le64 (st.drop (8 * i)) ^^^ le64 (d.drop (8 * i)))).length = 8 := rfl
    have hfit : 8 * i +
        (le64bytes (le64 (st.drop (8 * i)) ^^^ le64 (d.drop (8 * i)))).length ≤ st.length := by
      rw [h8]
      omega
    have hpt : ∀ m, (overwrite st (8 * i)
        (le64bytes (le64 (st.drop (8 * i)) ^^^ le64 (d.drop (8 * i))))).getD m 0 =
        if 8 * i ≤ m ∧ m < 8 * i + 8 then st.getD m 0 ^^^ d.getD m 0 else st.getD m 0 := by
      intro m
      rw [overwrite_getD _ _ _ hfit m, h8]
      by_cases hm : 8 * i ≤ m ∧ m < 8 * i + 8
      · rw [if_pos hm, if_pos hm]
        have hj : m - 8 * i < 8 := by omega
        rw [le64bytes_getD _ _ hj, digit_xor,
          le64_digit _ (bytes_drop st hst _) _ hj, le64_digit _ (bytes_drop d hd _) _ hj,
          getD_drop, getD_drop]
        have hidx : 8 * i + (m - 8 * i) = m := by omega
        rw [hidx]
      · rw [if_neg hm, if_neg hm]
    have hnext := ih (i + 1) _ hst' (by rw [hlen']; omega) (by omega)
    refine ⟨hnext.1, fun m => ?_⟩
    rw [hnext.2 m]
    by_cases hm1 : 8 * (i + 1) ≤ m ∧ m < 8 * (i + 1 + n)
    · rw [if_pos hm1, if_pos (by omega), hpt m, if_neg (by omega)]
    · rw [if_neg hm1, hpt m]
      by_cases hm2 : 8 * i ≤ m ∧ m < 8 * i + 8
      · rw [if_pos hm2, if_pos (by omega)]
      · rw [if_neg hm2, if_neg (by omega)]

/-- Pointwise description of the byte tail loop of `xorIn`. -/
theorem xorInTail_getD (d : List Nat) :
    ∀ (k i : Nat) (st : List Nat), i + k ≤ st.length →
      ∀ m, (xorInTail d i k st).getD m 0 =
        if i ≤ m ∧ m < i + k then st.getD m 0 ^^^ d.getD m 0 else st.getD m 0 := by
  intro k
  induction k with
  | zero =>
    intro i st hb m
    rw [if_neg (by omega)]
    rfl
  | succ n ih =>
    intro i st hb m
    simp only [xorInTail]
    rw [ih (i + 1) _ (by rw [List.length_set]; omega) m]
    have hset : ∀ m2, (st.set i (st.getD i 0 ^^^ d.getD i 0)).getD m2 0 =
        if m2 = i then st.getD i 0 ^^^ d.getD i 0 else st.getD m2 0 := by
      intro m2
      rw [List.getD_eq_getElem?_getD, List.getElem?_set]
      by_cases hm2 : i = m2
      · subst hm2
        rw [if_pos rfl, if_pos rfl, if_pos (show i < st.length by omega)]
        rfl
      · rw [if_neg hm2, if_neg (fun hh => hm2 hh.symm), ← List.getD_eq_getElem?_getD]
    rw [hset m]
    by_cases hm1 : i + 1 ≤ m ∧ m < i + 1 + n
    · rw [if_pos hm1, if_neg (show ¬ m = i by omega), if_pos (by omega)]
    · rw [if_neg hm1]
      by_cases hm0 : m = i
      · subst hm0
        rw [if_pos rfl, if_pos (by omega)]
      · rw [if_neg hm0, if_neg (by omega)]

theorem xorBytes_length (st d : List Nat) (h : d.length ≤ st.length) :
    (xorBytes st d).length = st.length := by
  simp only [xorBytes, List.length_append, List.length_zipWith, List.length_drop]
  omega

theorem xorBytes_getD (st d : List Nat) (h : d.length ≤ st.length) (m : Nat) :
    (xorBytes st d).getD m 0 =
      if m < d.length then st.getD m 0 ^^^ d.getD m 0 else st.getD m 0 := by
  simp only [xorBytes]
  by_cases hm : m < d.length
  · rw [if_pos hm]
    have h1 : m < st.length := by omega
    have hz : m < (List.zipWith (fun a b => a ^^^ b) st d).length := by
      rw [List.length_zipWith]
      omega
    rw [List.getD_eq_getElem?_getD, List.getElem?_append_left hz,
      List.getElem?_eq_getElem hz, List.getElem_zipWith,
      List.getD_eq_getElem st 0 h1, List.getD_eq_getElem d 0 hm]
    rfl
  · rw [if_neg hm]
    have hzlen : (List.zipWith (fun a b => a ^^^ b) st d).length = d.length := by
      rw [List.length_zipWith]
      omega
    rw [List.getD_eq_getElem?_getD, List.getElem?_append_right (by rw [hzlen]; omega),
      List.getElem?_drop, hzlen]
    have hidx : d.length + (m - d.length) = m := by omega
    rw [hidx, ← List.getD_eq_getElem?_getD]

/-- The optimized wide-word `xorIn` of keccak.go computes exactly the plain
byte-for-byte XOR of `d` into the front of `st`. -/
theorem xorIn_eq_xorBytes (st d : List Nat) (hlen : d.length ≤ st.length)
    (hst : Bytes st) (hd : Bytes d) : xorIn st d = xorBytes st d := by
  have hn8 : d.length >>> 3 = d.length / 8 := by
    rw [Nat.shiftRight_eq_div_pow]
  have hlanes := xorInLanes_getD d hd (d.length >>> 3) 0 st hst
    (by rw [hn8]; omega) (by rw [hn8]; omega)
  have hlaneslen := xorInLanes_length d (d.length >>> 3) 0 st
  have htail := xorInTail_getD d (d.length - (d.length >>> 3) <<< 3) ((d.length >>> 3) <<< 3)
    (xorInLanes d 0 (d.length >>> 3) st)
    (by rw [hlaneslen, Nat.shiftLeft_eq, hn8]; omega)
  apply ext_getD
  · rw [xorIn_length, xorBytes_length st d hlen]
  · intro m
    show (xorInTail d ((d.length >>> 3) <<< 3) (d.length - (d.length >>> 3) <<< 3)
      (xorInLanes d 0 (d.length >>> 3) st)).getD m 0 = (xorBytes st d).getD m 0
    rw [htail m, xorBytes_getD st d hlen m, hlanes.2 m]
    have e1 : (d.length >>> 3) <<< 3 = 8 * (d.length / 8) := by
      rw [Nat.shiftLeft_eq, hn8]
      ring
    have e2 : 8 * (0 + d.length >>> 3) = 8 * (d.length / 8) := by
      rw [hn8]
      ring_nf
    rw [e1, e2]
    have hdm : 8 * (d.length / 8) ≤ d.length := by omega
    split_ifs <;> first | rfl | omega

/-- C7: for every 200-byte state and every data of length at most Rate over
actual byte values, the wide-word `xorIn` equals pure byte-for-byte XOR
(`xorBytes`, which by construction never invokes the permutation): state
byte `i` becomes `state[i] XOR data[i]` for `i < len(data)` and is untouched
for `i ≥ len(data)`, and the state length is unchanged. -/
theorem c7_xorin_is_bytewise_xor (st d : List Nat) (hst200 : st.length = 200)
    (hdlen : d.length ≤ rate) (hst : Bytes st) (hd : Bytes d) :
    xorIn st d = xorBytes st d ∧
    (∀ i, i < d.length → (xorIn st d).getD i 0 = st.getD i 0 ^^^ d.getD i 0) ∧
    (∀ i, d.length ≤ i → (xorIn st d).getD i 0 = st.getD i 0) ∧
    (xorIn st d).length = st.length := by
  have hle : d.length ≤ st.length := by
    simp only [rate] at hdlen
    omega
  have heq := xorIn_eq_xorBytes st d hle hst hd
  refine ⟨heq, ?_, ?_, xorIn_length st d⟩
  · intro i hi
    rw [heq, xorBytes_getD st d hle i, if_pos hi]
  · intro i hi
    rw [heq, xorBytes_getD st d hle i, if_neg (by omega)]

/-- C7 witness at the all-zero state and the concrete data [1, 2, 3]. -/
theorem c7_xorin_is_bytewise_xor_witness :
    (zeroState.length = 200 ∧ ([1, 2, 3] : List Nat).length ≤ rate ∧
      Bytes zeroState ∧ Bytes [1, 2, 3]) ∧
    xorIn zeroState [1, 2, 3] = xorBytes zeroState [1, 2, 3] :=
  ⟨⟨List.length_replicate .., by decide, bytes_zeroState, by decide⟩,
   (c7_xorin_is_bytewise_xor zeroState [1, 2, 3] (List.length_replicate ..) (by decide)
      bytes_zeroState (by decide)).1⟩

/-! The spec's bytewise one-shot algorithm computes Sum256. -/

theorem bytes_keccakF1600 (st : List Nat) : Bytes (keccakF1600 st) := by
  intro x hx
  simp only [keccakF1600, lanesToBytes, List.mem_flatten, List.mem_map] at hx
  obtain ⟨l, ⟨v, hv, rfl⟩, hxl⟩ := hx
  exact bytes_le64bytes v x hxl

theorem bytes_xorBytes (st d : List Nat) (hst : Bytes st) (hd : Bytes d) :
    Bytes (xorBytes st d) := by
  intro x hx
  simp only [xorBytes, List.mem_append] at hx
  rcases hx with h | h
  · obtain ⟨i, hi, rfl⟩ := List.mem_iff_getElem.mp h
    rw [List.getElem_zipWith]
    have hi1 : i < st.length := by
      rw [List.length_zipWith] at hi
      omega
    have hi2 : i < d.length := by
      rw [List.length_zipWith] at hi
      omega
    exact @Nat.xor_lt_two_pow _ _ 8 (hst _ (List.getElem_mem hi1)) (hd _ (List.getElem_mem hi2))
  · exact hst _ (List.drop_subset _ _ h)

theorem bytes_absorbLoop_state (st d : List Nat) (hst : Bytes st) :
    Bytes (absorbLoop st d).1 := by
  rcases absorbLoop_state_shape d.length st d (Nat.le_refl _) with h | ⟨x, hx⟩
  · rw [h]
    exact hst
  · rw [hx]
    exact bytes_keccakF1600 x

theorem bytes_absorbLoop_tail (st d : List Nat) (hd : Bytes d) :
    Bytes (absorbLoop st d).2 := by
  intro x hx
  exact hd x (blockLoop_tail_mem _ d.length st d (Nat.le_refl _) x hx)

theorem specLoop_nil (st d : List Nat) (h : d.length < rate) : specLoop st d = (st, d) :=
  blockLoop_stop _ st d h

theorem specLoop_step (st d : List Nat) (h : rate ≤ d.length) :
    specLoop st d = specLoop (keccakF1600 (xorBytes st (d.take rate))) (d.drop rate) := by
  have hs := blockLoop_step (fun s b => keccakF1600 (xorBytes s b)) st d h
  simpa [specLoop] using hs

/-- On byte-valued inputs the optimized absorb loop and the spec's bytewise
absorb loop coincide. -/
theorem absorbLoop_eq_specLoop : ∀ (n : Nat) (st d : List Nat), d.length ≤ n →
    st.length = 200 → Bytes st → Bytes d → absorbLoop st d = specLoop st d := by
  intro n
  induction n with
  | zero =>
    intro st d hd _ _ _
    have hnil : d = [] := List.eq_nil_of_length_eq_zero (Nat.le_zero.mp hd)
    subst hnil
    rw [absorbLoop_nil _ _ (by simp [rate]), specLoop_nil _ _ (by simp [rate])]
  | succ k ih =>
    intro st d hd h200 hst hdB
    by_cases h : rate ≤ d.length
    · rw [absorbLoop_step st d h, specLoop_step st d h]
      have htake : (d.take rate).length ≤ st.length := by
        rw [List.length_take, h200]
        simp only [rate]
        omega
      rw [xorIn_eq_xorBytes st (d.take rate) htake hst (bytes_take d hdB _)]
      exact ih _ _ (by simp only [List.length_drop, rate] at *; omega)
        (keccakF1600_length _) (bytes_keccakF1600 _) (bytes_drop d hdB _)
    · rw [absorbLoop_nil st d (Nat.not_le.mp h), specLoop_nil st d (Nat.not_le.mp h)]

/-- C2: for every byte sequence, Sum256 computes exactly the spec's algorithm
on a 200-byte all-zero state: absorb full rate blocks by bytewise XOR and
permute, XOR in the tail, XOR 0x01 at index len(tail) and 0x80 at index
Rate-1, permute once more and take the first 32 bytes. -/
theorem c2_sum256_follows_algorithm (d : List Nat) (hd : Bytes d) :
    Sum256 d = sum256Alg d := by
  have hz200 : zeroState.length = 200 := List.length_replicate ..
  have hloop := absorbLoop_eq_specLoop d.length zeroState d (Nat.le_refl _) hz200
    bytes_zeroState hd
  show (keccakF1600 (padApply (xorIn (absorbLoop zeroState d).1 (absorbLoop zeroState d).2)
      (absorbLoop zeroState d).2.length)).take 32 =
    (keccakF1600 (padApply (xorBytes (specLoop zeroState d).1 (specLoop zeroState d).2)
      (specLoop zeroState d).2.length)).take 32
  rw [← hloop]
  have htlen : (absorbLoop zeroState d).2.length ≤ (absorbLoop zeroState d).1.length := by
    rw [absorbLoop_state_length zeroState d hz200, absorbLoop_tail_length]
    have := Nat.mod_lt d.length (show 0 < rate by simp [rate])
    simp only [rate] at *
    omega
  rw [xorIn_eq_xorBytes _ _ htlen (bytes_absorbLoop_state zeroState d bytes_zeroState)
    (bytes_absorbLoop_tail zeroState d hd)]

/-- C2 witness at the concrete byte sequence [5, 6]. -/
theorem c2_sum256_follows_algorithm_witness :
    Bytes [5, 6] ∧ Sum256 [5, 6] = sum256Alg [5, 6] :=
  ⟨by decide, c2_sum256_follows_algorithm [5, 6] (by decide)⟩

end Keccak
